import Mathlib

/-!
Verification development for the ur-monitor vacancy-watcher
(src/ur_monitor.py). The Python source is shallowly embedded below:
pure string processing becomes functions on `List Char` / `String`,
the network layer becomes an explicit environment (a function from
request payloads to parsed responses), file writes become an explicit
operation trace with a crash semantics, and the persisted JSON state
file becomes an inductive JSON value type.
-/

/-! ## Character classes used by the regular expressions in the source

The Python regexes use the Unicode-aware classes `\d`, `\s`, `\w` and
the word-boundary assertion `\b`.  We model them over the character
ranges that can actually occur in this program's inputs (ASCII, CJK
punctuation/ideographs, kana, full-width digits, the common Unicode
spaces).  `cv` abbreviates the code point of a character. -/

def cv (c : Char) : Nat := c.toNat

/-- Python regex `\d` restricted to ASCII and full-width digits. -/
def isReDigit (c : Char) : Bool :=
  decide ((48 ≤ cv c ∧ cv c ≤ 57) ∨ (0xFF10 ≤ cv c ∧ cv c ≤ 0xFF19))

/-- The character class `[\d,]` appearing in the rent/fee regexes. -/
def isDigitComma (c : Char) : Bool := isReDigit c || c == ','

/-- Python regex `\s` (Unicode whitespace). -/
def isPySpace (c : Char) : Bool :=
  decide (cv c = 9 ∨ cv c = 10 ∨ cv c = 11 ∨ cv c = 12 ∨ cv c = 13 ∨
    cv c = 28 ∨ cv c = 29 ∨ cv c = 30 ∨ cv c = 31 ∨ cv c = 32 ∨
    cv c = 0x85 ∨ cv c = 0xA0 ∨ cv c = 0x1680 ∨
    (0x2000 ≤ cv c ∧ cv c ≤ 0x200A) ∨ cv c = 0x2028 ∨ cv c = 0x2029 ∨
    cv c = 0x202F ∨ cv c = 0x205F ∨ cv c = 0x3000)

/-- Python regex `\w` (word character) over the ranges relevant here:
ASCII alphanumerics and underscore, kana, CJK ideographs, full-width
digits and Latin. -/
def isPyWord (c : Char) : Bool :=
  decide ((48 ≤ cv c ∧ cv c ≤ 57) ∨ (65 ≤ cv c ∧ cv c ≤ 90) ∨
    (97 ≤ cv c ∧ cv c ≤ 122) ∨ cv c = 95 ∨
    (0x3040 ≤ cv c ∧ cv c ≤ 0x30FF) ∨ (0x4E00 ≤ cv c ∧ cv c ≤ 0x9FFF) ∨
    (0xFF10 ≤ cv c ∧ cv c ≤ 0xFF5A))

/-! ## Python `str.replace`

`replaceList p r l` models `l.replace(p, r)`: scan left to right, at
each position replace the leftmost occurrence of `p` and continue
after the replaced segment (non-overlapping).  The recursion is
structural on a fuel argument equal to the length of the list, which
is sufficient because every step consumes at least one character
(all patterns used by the source are nonempty). -/

def replaceGo (p r : List Char) : Nat → List Char → List Char
  | 0, l => l
  | fuel + 1, l =>
    match l with
    | [] => []
    | c :: cs =>
      if p.isPrefixOf (c :: cs) then
        r ++ replaceGo p r fuel (cs.drop (p.length - 1))
      else
        c :: replaceGo p r fuel cs

def replaceList (p r l : List Char) : List Char := replaceGo p r l.length l

/-- Whether `p` occurs as a contiguous sublist of `l`. -/
def containsSub (p : List Char) : List Char → Bool
  | [] => p.isEmpty
  | c :: cs => p.isPrefixOf (c :: cs) || containsSub p cs

/-! ## decode_area and the per-field cleaner (src/ur_monitor.py lines 83-89, 344-346)

The source:

  def decode_area(s):
      if not s: return ""
      return (s.replace("㎡", "m²").replace("&sup2;", "²")
               .replace("m&sup2;", "m²").replace("㎡", "m²"))

Note that the character ㎡ IS U+33A1, so the first and last replace
have the same pattern, and that the numeric entity &#13217; is not
among the replaced patterns. -/

def decodeChars (l : List Char) : List Char :=
  replaceList "㎡".data "m²".data
    (replaceList "m&sup2;".data "m²".data
      (replaceList "&sup2;".data "²".data
        (replaceList "㎡".data "m²".data l)))

def decode_area (s : String) : String :=
  if s = "" then "" else ⟨decodeChars s.data⟩

/-- Characters kept by `re.sub(r"[,\s]", "", s)`. -/
def keepChar (c : Char) : Bool := !(c == ',' || isPySpace c)

/-- The per-field cleaner inside `canonicalize`:
`s = decode_area(s or ""); return re.sub(r"[,\s]", "", s)`.
A missing key (`r.get` returning `None`) and `None`/empty values are
modeled by `Option.getD ""` exactly as `s or ""` does. -/
def clean (o : Option String) : String :=
  ⟨(decode_area (o.getD "")).data.filter keepChar⟩

/-! ## RoomRecord and canonicalize (src/ur_monitor.py lines 340-355) -/

/-- A raw room dictionary.  Every field is optional: `none` models a
missing key or a `None` value of the Python dict. -/
structure Room where
  id : Option String
  name : Option String
  type : Option String
  floorspace : Option String
  floor : Option String
  rent : Option String
  commonfee : Option String
deriving DecidableEq

/-- A canonical key: the ordered tuple of the six cleaned fields.
Python tuples of strings are modeled as lists of strings. -/
abbrev Key := List String

/-- The tuple appended for one record by `canonicalize` (fixed order:
name, type, floorspace, floor, rent, commonfee). -/
def keyOf (r : Room) : Key :=
  [clean r.name, clean r.type, clean r.floorspace,
   clean r.floor, clean r.rent, clean r.commonfee]

/-- Lexicographic `<` on code points, as Python compares strings. -/
def strLt : List Char → List Char → Bool
  | [], [] => false
  | [], _ :: _ => true
  | _ :: _, [] => false
  | a :: as, b :: bs => decide (cv a < cv b) || (a == b && strLt as bs)

/-- Lexicographic `≤` on tuples of strings, as Python compares the
key tuples in `sorted`. -/
def keyLE : Key → Key → Bool
  | [], _ => true
  | _ :: _, [] => false
  | a :: as, b :: bs => strLt a.data b.data || (a == b && keyLE as bs)

/-- `canonicalize(rooms)`: build the tuple for every record, form the
set (`dedup`) and return it sorted.  Python's `sorted` (a stable sort
by `keyLE`) is modeled by insertion sort, which agrees with it on any
comparator. -/
def canonicalize (rooms : List Room) : List Key :=
  List.insertionSort (fun a b : Key => keyLE a b = true) ((rooms.map keyOf).dedup)

/-- The record whose fields are the components of `canonicalize [r]`'s
key, used to state idempotence of canonicalization. -/
def keyRoom (r : Room) : Room :=
  ⟨none, some (clean r.name), some (clean r.type), some (clean r.floorspace),
   some (clean r.floor), some (clean r.rent), some (clean r.commonfee)⟩

/-- A room record with every field absent. -/
def emptyRoom : Room := ⟨none, none, none, none, none, none, none⟩

/-- Replace only the floorspace field of a record. -/
def withFloorspace (r : Room) (fs : Option String) : Room :=
  ⟨r.id, r.name, r.type, fs, r.floor, r.rent, r.commonfee⟩

/-! ## HTML-path rent extraction (src/ur_monitor.py lines 133, 137-140)

The source searches the flattened container text with

  rent_m = re.search(r"(?:賃料[:：]?\s*([\d,]+)\s*円)|(?:\b([\d,]+)\s*円\b)", txt)
  rent_val = rent_m.group(1) or rent_m.group(2) or ""
  rent_val = rent_val + "円" if rent_val else ""

`re.search` scans positions left to right and, at each position, tries
the two alternatives in order.  For these particular sub-patterns the
greedy maximal-munch match is exact (no backtracking can succeed where
maximal munch fails, because `[\d,]`, `\s` and 円 are pairwise
disjoint character classes), so the matchers below implement maximal
munch directly. -/

/-- First alternative `賃料[:：]?\s*([\d,]+)\s*円` tried at one
position; returns the captured group 1. -/
def rentBranch1 (l : List Char) : Option (List Char) :=
  match l with
  | c1 :: c2 :: rest =>
    if c1 = '賃' ∧ c2 = '料' then
      let rest1 := match rest with
        | c :: r => if c = ':' ∨ c = '：' then r else rest
        | [] => rest
      let rest2 := rest1.dropWhile isPySpace
      let g := rest2.takeWhile isDigitComma
      if g = [] then none
      else
        match (rest2.dropWhile isDigitComma).dropWhile isPySpace with
        | '円' :: _ => some g
        | _ => none
    else none
  | _ => none

/-- Second alternative `\b([\d,]+)\s*円\b` tried at one position;
`prev` is the character before the position (for the `\b` assertion)
and the captured group 2 is returned. -/
def rentBranch2 (prev : Option Char) (l : List Char) : Option (List Char) :=
  match l with
  | [] => none
  | c :: _ =>
    if isDigitComma c = false then none
    else if (match prev with | some p => isPyWord p | none => false) = isPyWord c then
      none
    else
      let g := l.takeWhile isDigitComma
      match (l.dropWhile isDigitComma).dropWhile isPySpace with
      | '円' :: rest2 =>
        if (match rest2 with | c2 :: _ => isPyWord c2 | [] => false) = true then none
        else some g
      | _ => none

/-- The scan of `re.search`: leftmost matching position wins, with the
labeled alternative preferred at equal positions.  Returns
(group 1, group 2) of the match. -/
def rentSearch (prev : Option Char) :
    List Char → Option (Option (List Char) × Option (List Char))
  | [] => none
  | c :: cs =>
    match rentBranch1 (c :: cs) with
    | some g => some (some g, none)
    | none =>
      match rentBranch2 prev (c :: cs) with
      | some g => some (none, some g)
      | none => rentSearch (some c) cs

/-- Python `a or b` on strings (empty string is falsy). -/
def pyOr (a b : List Char) : List Char := if a = [] then b else a

/-- The extracted rent field of one container text (lines 137-140):
`(rent_m.group(1) or rent_m.group(2) or "") + "円"`, empty when there
is no match. -/
def rentValOf (txt : String) : String :=
  match rentSearch none txt.data with
  | none => ""
  | some (g1, g2) =>
    let v := pyOr (g1.getD []) (pyOr (g2.getD []) [])
    if v = [] then "" else ⟨v ++ ['円']⟩

/-- Modelled from the spec: the rent value adjacent to an explicit
"rent" label (賃料), i.e. the leftmost occurrence of the labeled
pattern alone.  Used to compare the code's extraction against the
spec's preference claim. -/
def specLabeledRent : List Char → Option (List Char)
  | [] => none
  | c :: cs =>
    match rentBranch1 (c :: cs) with
    | some g => some g
    | none => specLabeledRent cs

/-! ## Time window (src/ur_monitor.py lines 47-50, 78-81)

`in_window` compares `now` with `now.replace(hour=9, minute=30,
second=0, microsecond=0)` and `now.replace(hour=18, minute=59,
second=59, microsecond=0)`.  All three datetimes share the same date
and timezone, so the comparison is the lexicographic comparison of
(hour, minute, second, microsecond), modeled by `Time`. -/

structure Time where
  hour : Nat
  minute : Nat
  second : Nat
  micro : Nat
deriving DecidableEq

/-- Lexicographic `≤` on times of one day (Python datetime order
restricted to a fixed date). -/
def timeLE (a b : Time) : Bool :=
  decide (a.hour < b.hour ∨ (a.hour = b.hour ∧
    (a.minute < b.minute ∨ (a.minute = b.minute ∧
      (a.second < b.second ∨ (a.second = b.second ∧ a.micro ≤ b.micro))))))

def WINDOW_START : Nat × Nat := (9, 30)

def WINDOW_END : Nat × Nat := (18, 59)

/-- `in_window(now)`: start has second=0 microsecond=0, end has
second=59 microsecond=0. -/
def in_window (now : Time) : Bool :=
  timeLE ⟨WINDOW_START.1, WINDOW_START.2, 0, 0⟩ now &&
  timeLE now ⟨WINDOW_END.1, WINDOW_END.2, 59, 0⟩

/-- Modelled from the spec: the local time of day lies between 09:30
and 18:59, both boundaries included, read at minute granularity. -/
def specMinuteWindow (t : Time) : Bool :=
  decide ((WINDOW_START.1 < t.hour ∨ (WINDOW_START.1 = t.hour ∧ WINDOW_START.2 ≤ t.minute)) ∧
    (t.hour < WINDOW_END.1 ∨ (t.hour = WINDOW_END.1 ∧ t.minute ≤ WINDOW_END.2)))

/-! ## Fetch strategy chain (src/ur_monitor.py lines 73-75, 222-244, 329-337)

The network is an explicit environment: `post pl` is the parsed
result `parse_entries(r.text)` of the POST with payload `pl`
(`none` models a raised exception: network error or a non-2xx status
from `raise_for_status`; `some []` models a body — JSON or not — from
which `parse_entries` extracts no items).  The secondary and tertiary
strategies are modeled by their result lists; `fetch_all` records how
often each is invoked. -/

structure Payload where
  danchiCd : String
  indexNo : String
  pageSize : String
deriving DecidableEq

def PROP_ID : String := "7080"

/-- `to_danchi_code`: only "7080" maps to the suffixed variant. -/
def to_danchi_code (propId : String) : String :=
  if propId = "7080" then "7080e" else propId

def DANCHI : String := to_danchi_code PROP_ID

/-- `make_payload(page)`: indexNo starts at 1, pageSize fixed at 20. -/
def make_payload (page : Nat) : Payload :=
  ⟨DANCHI, toString page, "20"⟩

structure FetchEnv where
  post : Payload → Option (List Room)
  embedRooms : List Room
  fallbackRooms : List Room

/-- The paging loop of `fetch_api_v2_old`, with the list of issued
request payloads recorded.  `fuel` is the number of remaining
admissible iterations of `while page <= 10`. -/
def fetchApiGo (env : FetchEnv) : Nat → Nat → List Room → List Payload →
    List Room × List Payload
  | 0, _, acc, reqs => (acc, reqs)
  | fuel + 1, page, acc, reqs =>
    match env.post (make_payload page) with
    | none => (acc, reqs ++ [make_payload page])
    | some items =>
      if items.isEmpty then (acc, reqs ++ [make_payload page])
      else if items.length < 20 then (acc ++ items, reqs ++ [make_payload page])
      else fetchApiGo env fuel (page + 1) (acc ++ items) (reqs ++ [make_payload page])

/-- `fetch_api_v2_old()`: pages 1,2,... while `page <= 10`. -/
def fetch_api_v2_old (env : FetchEnv) : List Room × List Payload :=
  fetchApiGo env 10 1 [] []

structure FetchRun where
  rooms : List Room
  apiRequests : List Payload
  embedCalls : Nat
  fallbackCalls : Nat
deriving DecidableEq

/-- `fetch_all()`: API, then embed discovery, then the HTML fallback,
stopping at the first non-empty result. -/
def fetch_all (env : FetchEnv) : FetchRun :=
  let api := fetch_api_v2_old env
  if api.1.isEmpty then
    if env.embedRooms.isEmpty then
      ⟨env.fallbackRooms, api.2, 1, 1⟩
    else
      ⟨env.embedRooms, api.2, 1, 0⟩
  else
    ⟨api.1, api.2, 0, 0⟩

/-! ## File writes and crash states (src/ur_monitor.py lines 370-375, 407-409)

`save_state` writes the serialized payload to STATE_PATH + ".tmp" and
then calls `os.replace(tmp, STATE_PATH)`; `_hb_mark` opens HB_FILE
for writing directly.  A run's file operations form a trace; `Reach`
describes every file-system state observable if the process is killed
at any point during the trace: between operations, or in the middle
of a `write` (leaving an arbitrary prefix of the content — `open`
truncates, then bytes are appended).  `rename` is atomic. -/

def STATE_PATH : String := ".state.json"

def HB_FILE : String := ".hb-date.txt"

inductive FileOp where
  | write (path content : String)
  | rename (src dst : String)

/-- A file system: path to contents. -/
abbrev FS := String → Option String

def applyOp : FileOp → FS → FS
  | .write p c, fs => fun q => if q = p then some c else fs q
  | .rename a b, fs => fun q => if q = a then none else if q = b then fs a else fs q

/-- States observable while one operation is in progress. -/
def midOp : FileOp → FS → FS → Prop
  | .write p c, fs, fs' =>
      ∃ pre : List Char, pre.isPrefixOf c.data ∧
        fs' = fun q => if q = p then some (String.mk pre) else fs q
  | .rename _ _, _, _ => False

/-- `Reach ops fs0 fs`: the state `fs` is observable at some crash
point while executing `ops` from `fs0`. -/
def Reach : List FileOp → FS → FS → Prop
  | [], fs0, fs => fs = fs0
  | op :: rest, fs0, fs => fs = fs0 ∨ midOp op fs0 fs ∨ Reach rest (applyOp op fs0) fs

/-- The file operations of `save_state` (lines 370-375). -/
def save_state_ops (content : String) : List FileOp :=
  [.write (STATE_PATH ++ ".tmp") content,
   .rename (STATE_PATH ++ ".tmp") STATE_PATH]

/-- The file operations of `_hb_mark` (lines 407-409): a direct write. -/
def hb_mark_ops (datestamp : String) : List FileOp :=
  [.write HB_FILE datestamp]

/-! ## State file content (src/ur_monitor.py lines 357-375)

The persisted file is JSON; we embed the parsed value (`json.load` /
`json.dump` round-trip the values below).  `StateFile` distinguishes
a missing file, unreadable-or-unparseable content, and parsed JSON. -/

inductive J where
  | null
  | bool (b : Bool)
  | num (n : Int)
  | str (s : String)
  | arr (elems : List J)
  | obj (fields : List (String × J))

inductive StateFile where
  | missing
  | malformed
  | json (j : J)

/-- Conversion of one element of the rooms list by `tuple(x)`.
Lists of strings become key tuples; a string becomes the tuple of its
characters; a dict becomes the tuple of its keys; non-iterable values
(numbers, booleans, null) raise TypeError, modeled by `none` (the
surrounding `try` then yields the empty set).  Arrays containing
non-string scalars would make tuples with non-string components,
which lie outside the `Key` type and outside every claim; they are
also mapped to `none`. -/
def toTuple : J → Option Key
  | .arr l => go l
  | .str s => some (s.data.map (fun c => String.mk [c]))
  | .obj kvs => some (kvs.map (fun kv => kv.1))
  | _ => none
where
  go : List J → Option Key
    | [] => some []
    | .str s :: rest =>
      match go rest with
      | some ks => some (s :: ks)
      | none => none
    | _ :: _ => none

/-- Convert every element of the rooms list, aborting on the first
exception as the enclosing `try` does. -/
def tuplesOf : List J → Option (List Key)
  | [] => some []
  | x :: xs =>
    match toTuple x with
    | none => none
    | some k =>
      match tuplesOf xs with
      | some ks => some (k :: ks)
      | none => none

/-- `load_state()`:  no file -> (set(), True); unreadable or invalid
content -> (set(), True); otherwise take `data["rooms"]` when data is
a dict containing "rooms", else data itself, require a list, and
build the set of its tuples. -/
def load_state (f : StateFile) : Finset Key × Bool :=
  match f with
  | .missing => (∅, true)
  | .malformed => (∅, true)
  | .json j =>
    let rooms : J :=
      match j with
      | .obj kvs =>
        match kvs.lookup "rooms" with
        | some v => v
        | none => .obj kvs
      | _ => j
    match rooms with
    | .arr xs =>
      match tuplesOf xs with
      | some ks => (ks.toFinset, false)
      | none => (∅, true)
    | _ => (∅, true)

/-- `save_state(s)`: the JSON document written, namely the object
with a "rooms" key holding `sorted(list(s))`.  The argument is the
enumeration of the Python set. -/
def save_state_json (s : List Key) : J :=
  .obj [("rooms",
    .arr ((List.insertionSort (fun a b : Key => keyLE a b = true) s).map
      (fun k => J.arr (k.map J.str))))]

/-- The shapes `load_state` accepts with a non-initial result: a bare
list, or a dict whose "rooms" value is a list. -/
def validShape (j : J) : Prop :=
  (∃ xs, j = J.arr xs) ∨
  (∃ kvs xs, j = J.obj kvs ∧ kvs.lookup "rooms" = some (J.arr xs))

/-- A cleaned value that does not contain a square-meter encoding
pattern; removing commas/whitespace can otherwise splice one together
(e.g. from "&su p2;"), which a second cleaning pass then decodes. -/
def GoodField (o : Option String) : Prop :=
  containsSub "㎡".data (clean o).data = false ∧
  containsSub "&sup2;".data (clean o).data = false

/-! ## Helper lemmas about the string-replacement model -/

theorem replaceGo_fuel (p r : List Char) :
    ∀ (fuel fuel' : Nat) (l : List Char), l.length ≤ fuel → l.length ≤ fuel' →
      replaceGo p r fuel l = replaceGo p r fuel' l := by
  intro fuel
  induction fuel with
  | zero =>
    intro fuel' l hl _
    have hnil : l = [] := List.eq_nil_of_length_eq_zero (Nat.le_zero.mp hl)
    subst hnil
    cases fuel' <;> simp [replaceGo]
  | succ n ih =>
    intro fuel' l hl hl'
    cases l with
    | nil => cases fuel' <;> simp [replaceGo]
    | cons c cs =>
      cases fuel' with
      | zero => simp at hl'
      | succ m =>
        simp only [replaceGo]
        by_cases hp : p.isPrefixOf (c :: cs) = true
        · simp only [hp, if_true]
          have hc : cs.length ≤ n := by simp at hl; omega
          have hc' : cs.length ≤ m := by simp at hl'; omega
          have hd : (cs.drop (p.length - 1)).length ≤ cs.length := by
            simp [List.length_drop]
          exact congrArg (r ++ ·) (ih m _ (le_trans hd hc) (le_trans hd hc'))
        · simp only [hp, if_false]
          have hc : cs.length ≤ n := by simp at hl; omega
          have hc' : cs.length ≤ m := by simp at hl'; omega
          exact congrArg (c :: ·) (ih m _ hc hc')

theorem replaceGo_of_not_contains (p r : List Char) :
    ∀ (fuel : Nat) (l : List Char), containsSub p l = false → replaceGo p r fuel l = l := by
  intro fuel
  induction fuel with
  | zero => intro l _; rfl
  | succ n ih =>
    intro l h
    cases l with
    | nil => rfl
    | cons c cs =>
      simp only [containsSub, Bool.or_eq_false_iff] at h
      simp only [replaceGo, h.1, if_false]
      exact congrArg (c :: ·) (ih cs h.2)

theorem replaceList_of_not_contains (p r l : List Char)
    (h : containsSub p l = false) : replaceList p r l = l :=
  replaceGo_of_not_contains p r l.length l h

theorem isPrefixOf_append_self : ∀ (p x : List Char), p.isPrefixOf (p ++ x) = true := by
  intro p
  induction p with
  | nil => intro x; simp [List.isPrefixOf]
  | cons a as ih => intro x; simp [List.isPrefixOf_cons₂, ih x]

theorem replaceList_append_of_ne_head (ph : Char) (pt r : List Char) :
    ∀ (l₁ l₂ : List Char), (∀ c ∈ l₁, c ≠ ph) →
      replaceList (ph :: pt) r (l₁ ++ l₂) = l₁ ++ replaceList (ph :: pt) r l₂ := by
  intro l₁
  induction l₁ with
  | nil => intro l₂ _; simp
  | cons a as ih =>
    intro l₂ h
    have hne : (ph == a) = false :=
      beq_eq_false_iff_ne.mpr (fun he => (h a (by simp)) he.symm)
    show replaceGo (ph :: pt) r ((a :: as ++ l₂).length) (a :: as ++ l₂) = _
    simp only [List.cons_append, List.length_cons]
    simp only [replaceGo, List.isPrefixOf_cons₂, hne, Bool.false_and, if_false]
    exact congrArg (a :: ·) (ih l₂ (fun c hc => h c (by simp [hc])))

theorem replaceList_self_append (p r l₂ : List Char) (hp : p ≠ []) :
    replaceList p r (p ++ l₂) = r ++ replaceList p r l₂ := by
  cases p with
  | nil => exact absurd rfl hp
  | cons ph pt =>
    show replaceGo (ph :: pt) r ((ph :: pt ++ l₂).length) (ph :: pt ++ l₂) = _
    simp only [List.cons_append, List.length_cons]
    simp only [replaceGo, show (ph :: pt).isPrefixOf (ph :: (pt ++ l₂)) = true from
      isPrefixOf_append_self (ph :: pt) l₂, if_true]
    congr 1
    have hdrop : (pt ++ l₂).drop ((ph :: pt).length - 1) = l₂ := by
      simp only [List.length_cons, Nat.add_sub_cancel]
      exact List.drop_left pt l₂
    rw [hdrop]
    exact replaceGo_fuel (ph :: pt) r _ _ l₂ (by simp) (le_refl _)

theorem replaceList_self (p r : List Char) (hp : p ≠ []) :
    replaceList p r p = r := by
  have h := replaceList_self_append p r [] hp
  have hnil : replaceList p r [] = [] := rfl
  rw [List.append_nil, hnil, List.append_nil] at h
  exact h

theorem containsSub_append_of_ne_head (ph : Char) (pt : List Char) :
    ∀ (l₁ l₂ : List Char), (∀ c ∈ l₁, c ≠ ph) →
      containsSub (ph :: pt) (l₁ ++ l₂) = containsSub (ph :: pt) l₂ := by
  intro l₁
  induction l₁ with
  | nil => intro l₂ _; simp
  | cons a as ih =>
    intro l₂ h
    have hne : (ph == a) = false :=
      beq_eq_false_iff_ne.mpr (fun he => (h a (by simp)) he.symm)
    show containsSub (ph :: pt) (a :: (as ++ l₂)) = _
    simp only [containsSub, List.isPrefixOf_cons₂, hne, Bool.false_and, Bool.false_or]
    exact ih l₂ (fun c hc => h c (by simp [hc]))

theorem containsSub_of_isPrefixOf (p : List Char) :
    ∀ (l : List Char), p.isPrefixOf l = true → containsSub p l = true := by
  intro l
  cases l with
  | nil =>
    intro h
    cases p with
    | nil => rfl
    | cons a as => simp at h
  | cons c cs =>
    intro h
    simp [containsSub, h]

theorem containsSub_tail (c : Char) (p : List Char) :
    ∀ (l : List Char), containsSub (c :: p) l = true → containsSub p l = true := by
  intro l
  induction l with
  | nil => intro h; simp [containsSub] at h
  | cons x xs ih =>
    intro h
    simp only [containsSub, Bool.or_eq_true] at h ⊢
    rcases h with h | h
    · simp only [List.isPrefixOf_cons₂, Bool.and_eq_true] at h
      exact Or.inr (containsSub_of_isPrefixOf p xs h.2)
    · exact Or.inr (ih h)

/-! ## Lemmas about decode_area and clean -/

theorem decode_area_data (s : String) : (decode_area s).data = decodeChars s.data := by
  by_cases hs : s = ""
  · subst hs
    rfl
  · simp [decode_area, hs]

theorem filter_self_idem (q : Char → Bool) :
    ∀ l : List Char, (l.filter q).filter q = l.filter q := by
  intro l
  induction l with
  | nil => rfl
  | cons a as ih =>
    by_cases hq : q a = true
    · simp [List.filter_cons, hq, ih]
    · simp [List.filter_cons, hq, ih]

theorem decodeChars_of_noglyph (l : List Char)
    (h1 : containsSub "㎡".data l = false)
    (h2 : containsSub "&sup2;".data l = false) :
    decodeChars l = l := by
  have h3 : containsSub "m&sup2;".data l = false := by
    cases hm : containsSub "m&sup2;".data l
    · rfl
    · exfalso
      have hsplit : "m&sup2;".data = 'm' :: "&sup2;".data := by decide
      rw [hsplit] at hm
      have hcon := containsSub_tail 'm' ("&sup2;".data) l hm
      rw [h2] at hcon
      exact absurd hcon (by decide)
  unfold decodeChars
  rw [replaceList_of_not_contains _ _ _ h1, replaceList_of_not_contains _ _ _ h2,
    replaceList_of_not_contains _ _ _ h3, replaceList_of_not_contains _ _ _ h1]

theorem clean_some_getD (o : Option String) : clean o = clean (some (o.getD "")) := rfl

theorem clean_idem (o : Option String) (h : GoodField o) :
    clean (some (clean o)) = clean o := by
  have hstep : clean (some (clean o)) = ⟨(decodeChars (clean o).data).filter keepChar⟩ := by
    show (⟨(decode_area ((some (clean o)).getD "")).data.filter keepChar⟩ : String) = _
    rw [Option.getD_some, decode_area_data]
  rw [hstep, decodeChars_of_noglyph _ h.1 h.2]
  have hdata : (clean o).data = ((decode_area (o.getD "")).data).filter keepChar := rfl
  rw [hdata, filter_self_idem]
  rfl

theorem dedup_singleton (k : Key) : List.dedup [k] = [k] := by
  simp

theorem canonicalize_singleton (r : Room) : canonicalize [r] = [keyOf r] := by
  unfold canonicalize
  rw [List.map_singleton, dedup_singleton]
  rfl

/-! ## Decoding a decimal number followed by a glyph encoding -/

theorem digitdot_ne (d : List Char) (hd : ∀ c ∈ d, isReDigit c = true ∨ c = '.') :
    ∀ c ∈ d, c ≠ '㎡' ∧ c ≠ '&' ∧ c ≠ 'm' := by
  intro c hc
  refine ⟨?_, ?_, ?_⟩ <;> (intro hcon; subst hcon; exact absurd (hd _ hc) (by decide))

theorem decodeChars_digits_glyph (d : List Char)
    (hd : ∀ c ∈ d, isReDigit c = true ∨ c = '.') :
    decodeChars (d ++ "㎡".data) = d ++ "m²".data := by
  have hne := digitdot_ne d hd
  have hsq : "㎡".data = '㎡' :: ([] : List Char) := by decide
  have hm2 : "m²".data = ['m', '²'] := by decide
  have step1 : replaceList "㎡".data "m²".data (d ++ "㎡".data) = d ++ "m²".data := by
    rw [hsq, replaceList_append_of_ne_head '㎡' [] _ d _ (fun c hc => (hne c hc).1)]
    rw [show ('㎡' :: ([] : List Char)) = "㎡".data from by decide,
      replaceList_self _ _ (by decide)]
  have hnosup : containsSub "&sup2;".data (d ++ "m²".data) = false := by
    rw [show "&sup2;".data = '&' :: "sup2;".data from by decide]
    rw [containsSub_append_of_ne_head '&' _ d _ (fun c hc => (hne c hc).2.1)]
    rw [hm2]; decide
  have hnomsup : containsSub "m&sup2;".data (d ++ "m²".data) = false := by
    rw [show "m&sup2;".data = 'm' :: "&sup2;".data from by decide]
    rw [containsSub_append_of_ne_head 'm' _ d _ (fun c hc => (hne c hc).2.2)]
    rw [hm2]; decide
  have hnosq : containsSub "㎡".data (d ++ "m²".data) = false := by
    rw [hsq, containsSub_append_of_ne_head '㎡' _ d _ (fun c hc => (hne c hc).1)]
    rw [hm2]; decide
  unfold decodeChars
  rw [step1, replaceList_of_not_contains _ _ _ hnosup,
    replaceList_of_not_contains _ _ _ hnomsup,
    replaceList_of_not_contains _ _ _ hnosq]

theorem decodeChars_digits_entity (d : List Char)
    (hd : ∀ c ∈ d, isReDigit c = true ∨ c = '.') :
    decodeChars (d ++ "m&sup2;".data) = d ++ "m²".data := by
  have hne := digitdot_ne d hd
  have hm2 : "m²".data = ['m', '²'] := by decide
  have step1 : replaceList "㎡".data "m²".data (d ++ "m&sup2;".data) =
      d ++ "m&sup2;".data := by
    apply replaceList_of_not_contains
    rw [show "㎡".data = '㎡' :: ([] : List Char) from by decide]
    rw [containsSub_append_of_ne_head '㎡' _ d _ (fun c hc => (hne c hc).1)]
    decide
  have step2 : replaceList "&sup2;".data "²".data (d ++ "m&sup2;".data) =
      d ++ "m²".data := by
    have hsplit : d ++ "m&sup2;".data = (d ++ ['m']) ++ "&sup2;".data := by
      rw [List.append_assoc]
      congr 1
    rw [hsplit]
    rw [show "&sup2;".data = '&' :: "sup2;".data from by decide]
    rw [replaceList_append_of_ne_head '&' _ _ (d ++ ['m']) _ ?side]
    case side =>
      intro c hc
      rcases List.mem_append.mp hc with hc | hc
      · exact (hne c hc).2.1
      · simp at hc; subst hc; decide
    rw [show ('&' :: "sup2;".data) = "&sup2;".data from by decide,
      replaceList_self _ _ (by decide)]
    rw [List.append_assoc]
    congr 1
  have hnomsup : containsSub "m&sup2;".data (d ++ "m²".data) = false := by
    rw [show "m&sup2;".data = 'm' :: "&sup2;".data from by decide]
    rw [containsSub_append_of_ne_head 'm' _ d _ (fun c hc => (hne c hc).2.2)]
    rw [hm2]; decide
  have hnosq : containsSub "㎡".data (d ++ "m²".data) = false := by
    rw [show "㎡".data = '㎡' :: ([] : List Char) from by decide]
    rw [containsSub_append_of_ne_head '㎡' _ d _ (fun c hc => (hne c hc).1)]
    rw [hm2]; decide
  unfold decodeChars
  rw [step1, step2, replaceList_of_not_contains _ _ _ hnomsup,
    replaceList_of_not_contains _ _ _ hnosq]

/-! ## Lemmas about the rent-extraction scan -/

theorem takeWhile_append_sat (q : Char → Bool) :
    ∀ (l₁ : List Char) (a : Char) (l₂ : List Char),
      (∀ c ∈ l₁, q c = true) → q a = false →
      List.takeWhile q (l₁ ++ a :: l₂) = l₁ := by
  intro l₁
  induction l₁ with
  | nil => intro a l₂ _ ha; simp [List.takeWhile_cons, ha]
  | cons x xs ih =>
    intro a l₂ h ha
    have hx : q x = true := h x (by simp)
    simp only [List.cons_append, List.takeWhile_cons, hx, if_true]
    rw [ih a l₂ (fun c hc => h c (by simp [hc])) ha]

theorem dropWhile_append_sat (q : Char → Bool) :
    ∀ (l₁ : List Char) (a : Char) (l₂ : List Char),
      (∀ c ∈ l₁, q c = true) → q a = false →
      List.dropWhile q (l₁ ++ a :: l₂) = a :: l₂ := by
  intro l₁
  induction l₁ with
  | nil => intro a l₂ _ ha; simp [List.dropWhile_cons, ha]
  | cons x xs ih =>
    intro a l₂ h ha
    have hx : q x = true := h x (by simp)
    simp only [List.cons_append, List.dropWhile_cons, hx, if_true]
    exact ih a l₂ (fun c hc => h c (by simp [hc])) ha

theorem dc_ne_colon (c : Char) (h : isDigitComma c = true) : ¬(c = ':' ∨ c = '：') := by
  rintro (rfl | rfl) <;> revert h <;> decide

theorem dc_not_space (c : Char) (h : isDigitComma c = true) : isPySpace c = false := by
  simp only [isDigitComma, isReDigit, Bool.or_eq_true, decide_eq_true_eq, beq_iff_eq] at h
  simp only [isPySpace, decide_eq_false_iff_not]
  rcases h with h | rfl
  · omega
  · decide

theorem rentBranch1_label (n B : List Char) (hn : n ≠ [])
    (hdc : ∀ c ∈ n, isDigitComma c = true) :
    rentBranch1 ('賃' :: '料' :: (n ++ '円' :: B)) = some n := by
  cases n with
  | nil => exact absurd rfl hn
  | cons n0 n' =>
    have h0 : isDigitComma n0 = true := hdc n0 (by simp)
    have hcolon : ¬(n0 = ':' ∨ n0 = '：') := dc_ne_colon n0 h0
    have hspace : isPySpace n0 = false := dc_not_space n0 h0
    have htake : List.takeWhile isDigitComma ((n0 :: n') ++ '円' :: B) = n0 :: n' :=
      takeWhile_append_sat _ _ _ _ hdc (by decide)
    have hdrop : List.dropWhile isDigitComma ((n0 :: n') ++ '円' :: B) = '円' :: B :=
      dropWhile_append_sat _ _ _ _ hdc (by decide)
    simp only [List.cons_append] at htake hdrop
    simp only [rentBranch1, List.cons_append, if_neg hcolon,
      List.dropWhile_cons, hspace, Bool.false_eq_true, if_false, htake, hdrop,
      if_pos, and_self, reduceIte]
    rw [if_neg (by decide : ¬isPySpace '円' = true)]
    rw [if_neg (List.cons_ne_nil n0 n')]
    rfl

theorem rentBranch1_none_of_ne (c : Char) (l : List Char) (h : c ≠ '賃') :
    rentBranch1 (c :: l) = none := by
  cases l with
  | nil => rfl
  | cons b bs => simp [rentBranch1, h]

theorem rentBranch2_none_of_not_dc (prev : Option Char) (c : Char) (l : List Char)
    (h : isDigitComma c = false) : rentBranch2 prev (c :: l) = none := by
  simp [rentBranch2, h]

theorem rentSearch_cons (prev : Option Char) (c : Char) (cs : List Char) :
    rentSearch prev (c :: cs) =
      match rentBranch1 (c :: cs) with
      | some g => some (some g, none)
      | none =>
        match rentBranch2 prev (c :: cs) with
        | some g => some (none, some g)
        | none => rentSearch (some c) cs := rfl

theorem rentSearch_of_branch1 (prev : Option Char) (c : Char) (cs g : List Char)
    (h : rentBranch1 (c :: cs) = some g) :
    rentSearch prev (c :: cs) = some (some g, none) := by
  rw [rentSearch_cons, h]

theorem rentSearch_skip (suffix g : List Char)
    (hs : ∀ prev, rentSearch prev suffix = some (some g, none)) :
    ∀ (A : List Char) (prev : Option Char),
      (∀ c ∈ A, isDigitComma c = false ∧ c ≠ '賃') →
      rentSearch prev (A ++ suffix) = some (some g, none) := by
  intro A
  induction A with
  | nil => intro prev _; exact hs prev
  | cons a as ih =>
    intro prev hA
    have ha := hA a (by simp)
    rw [List.cons_append, rentSearch_cons,
      rentBranch1_none_of_ne a _ ha.2, rentBranch2_none_of_not_dc prev a _ ha.1]
    exact ih (some a) (fun c hc => hA c (by simp [hc]))


/-! ## Lemmas about the paging loop and the state file -/

theorem fetchApiGo_pages (env : FetchEnv) :
    ∀ (fuel page : Nat) (acc : List Room) (reqs : List Payload),
      ∃ m, m ≤ fuel ∧
        (fetchApiGo env fuel page acc reqs).2 =
          reqs ++ (List.range' page m).map make_payload ∧
        (∀ j, j + 1 < m →
          ∃ its, env.post (make_payload (page + j)) = some its ∧ 20 ≤ its.length) := by
  intro fuel
  induction fuel with
  | zero =>
    intro page acc reqs
    exact ⟨0, Nat.le_refl 0, by simp [fetchApiGo], fun j hj => absurd hj (by omega)⟩
  | succ nn ih =>
    intro page acc reqs
    cases hpost : env.post (make_payload page) with
    | none =>
      refine ⟨1, by omega, ?_, fun j hj => absurd hj (by omega)⟩
      simp [fetchApiGo, hpost]
    | some items =>
      by_cases hemp : items.isEmpty
      · refine ⟨1, by omega, ?_, fun j hj => absurd hj (by omega)⟩
        simp [fetchApiGo, hpost, hemp]
      · by_cases hlen : items.length < 20
        · refine ⟨1, by omega, ?_, fun j hj => absurd hj (by omega)⟩
          simp [fetchApiGo, hpost, hemp, hlen]
        · obtain ⟨m, hm, heq, hfull⟩ :=
            ih (page + 1) (acc ++ items) (reqs ++ [make_payload page])
          refine ⟨m + 1, by omega, ?_, ?_⟩
          · have hstep : (fetchApiGo env (nn + 1) page acc reqs).2 =
                (fetchApiGo env nn (page + 1) (acc ++ items)
                  (reqs ++ [make_payload page])).2 := by
              simp [fetchApiGo, hpost, hemp, hlen]
            rw [hstep, heq, List.range'_succ, List.map_cons, List.append_assoc]
            rfl
          · intro j hj
            cases j with
            | zero =>
              refine ⟨items, by simpa using hpost, by omega⟩
            | succ j' =>
              have hh := hfull j' (by omega)
              have harith : page + 1 + j' = page + (j' + 1) := by omega
              rwa [harith] at hh

theorem toTuple_go_strs : ∀ k : Key, toTuple.go (k.map J.str) = some k := by
  intro k
  induction k with
  | nil => rfl
  | cons s ss ih =>
    show toTuple.go (J.str s :: ss.map J.str) = some (s :: ss)
    simp only [toTuple.go, ih]

theorem tuplesOf_keys : ∀ l : List Key,
    tuplesOf (l.map (fun k => J.arr (k.map J.str))) = some l := by
  intro l
  induction l with
  | nil => rfl
  | cons k ks ih =>
    show tuplesOf (J.arr (k.map J.str) :: ks.map (fun k => J.arr (k.map J.str))) = _
    simp only [tuplesOf, ih]
    show (match toTuple.go (k.map J.str) with
      | none => none
      | some kk =>
        match some ks with
        | some kss => some (kk :: kss)
        | none => none) = some (k :: ks)
    rw [toTuple_go_strs]


/-! ## The claims -/

/-- C1, counterexample: the claim fails as stated.  Two records that
differ only in the encoding of the square-meter glyph in their
floor-area field — the native glyph versus the HTML numeric entity
&#13217; — canonicalize to different keys, because decode_area never
replaces the numeric entity (only the native glyph and the named
entity are decoded; the numeric entity is normalized solely during
HTML extraction in parse_entries). -/
theorem c1_glyph_numeric_entity_cex :
    canonicalize [withFloorspace emptyRoom (some "52.3㎡")] ≠
      canonicalize [withFloorspace emptyRoom (some "52.3&#13217;")] := by
  decide

/-- C1 (corrected): for records whose floor-area field is a decimal
number immediately followed by the native glyph ㎡ versus the HTML
named entity, canonicalize produces identical keys; the HTML numeric
entity &#13217; is excluded because decode_area does not decode it. -/
theorem c1_glyph_equivalence_amended (r : Room) (d : List Char)
    (hd : ∀ c ∈ d, isReDigit c = true ∨ c = '.') :
    canonicalize [withFloorspace r (some ⟨d ++ "㎡".data⟩)] =
      canonicalize [withFloorspace r (some ⟨d ++ "m&sup2;".data⟩)] := by
  rw [canonicalize_singleton, canonicalize_singleton]
  have hclean : clean (some (⟨d ++ "㎡".data⟩ : String)) =
      clean (some (⟨d ++ "m&sup2;".data⟩ : String)) := by
    unfold clean
    rw [Option.getD_some, Option.getD_some, decode_area_data, decode_area_data]
    show (⟨(decodeChars (d ++ "㎡".data)).filter keepChar⟩ : String) =
      ⟨(decodeChars (d ++ "m&sup2;".data)).filter keepChar⟩
    rw [decodeChars_digits_glyph d hd, decodeChars_digits_entity d hd]
  simp only [keyOf, withFloorspace, hclean]

/-- Witness for C1 at the concrete area 52.3. -/
theorem c1_glyph_equivalence_amended_witness :
    canonicalize [withFloorspace emptyRoom (some ⟨"52.3".data ++ "㎡".data⟩)] =
      canonicalize [withFloorspace emptyRoom (some ⟨"52.3".data ++ "m&sup2;".data⟩)] :=
  c1_glyph_equivalence_amended emptyRoom "52.3".data (by decide)

/-- C2 (confirmed): fetch_all tries the strategies in fixed order and
returns the result of the first strategy yielding a non-empty list,
never invoking a later strategy after a non-empty result; and when the
primary structured fetch's first page parses to no items (for example
a non-JSON body), exactly one API request is made (no retry) and the
secondary strategy is invoked exactly once. -/
theorem c2_strategy_chain (env : FetchEnv) :
    (fetch_all env).rooms =
      (if (fetch_api_v2_old env).1.isEmpty then
        (if env.embedRooms.isEmpty then env.fallbackRooms else env.embedRooms)
       else (fetch_api_v2_old env).1) ∧
    (fetch_all env).embedCalls = (if (fetch_api_v2_old env).1.isEmpty then 1 else 0) ∧
    (fetch_all env).fallbackCalls =
      (if ((fetch_api_v2_old env).1.isEmpty && env.embedRooms.isEmpty) then 1 else 0) ∧
    (env.post (make_payload 1) = some [] →
      (fetch_all env).apiRequests = [make_payload 1] ∧ (fetch_all env).embedCalls = 1) := by
  refine ⟨?_, ?_, ?_, ?_⟩
  · unfold fetch_all
    by_cases h1 : (fetch_api_v2_old env).1.isEmpty <;>
      by_cases h2 : env.embedRooms.isEmpty <;> simp [h1, h2]
  · unfold fetch_all
    by_cases h1 : (fetch_api_v2_old env).1.isEmpty <;>
      by_cases h2 : env.embedRooms.isEmpty <;> simp [h1, h2]
  · unfold fetch_all
    by_cases h1 : (fetch_api_v2_old env).1.isEmpty <;>
      by_cases h2 : env.embedRooms.isEmpty <;> simp [h1, h2]
  · intro hpost
    have hapi : fetch_api_v2_old env = ([], [make_payload 1]) := by
      show fetchApiGo env (9 + 1) 1 [] [] = ([], [make_payload 1])
      simp [fetchApiGo, hpost]
    by_cases h2 : env.embedRooms.isEmpty <;> simp [fetch_all, hapi, h2]

/-- Witness for C2: a first page parsing to no items makes one API
request and invokes the secondary strategy once. -/
theorem c2_strategy_chain_witness :
    (fetch_all ⟨fun _ => some [], [emptyRoom], []⟩).apiRequests = [make_payload 1] ∧
    (fetch_all ⟨fun _ => some [], [emptyRoom], []⟩).embedCalls = 1 :=
  (c2_strategy_chain ⟨fun _ => some [], [emptyRoom], []⟩).2.2.2 rfl

/-- C3, counterexample: the claim fails as stated because _hb_mark
writes the heartbeat marker file directly (no temp file, no rename):
killing the process mid-write can leave the marker holding a strict
prefix of the new date stamp, which is neither the old contents nor
the complete new contents. -/
theorem c3_heartbeat_partial_write_cex :
    Reach (hb_mark_ops "20261012") (fun _ => none)
      (fun q => if q = HB_FILE then some "2026" else none) ∧
    (fun q => if q = HB_FILE then some "2026" else (none : Option String)) HB_FILE ≠
      (fun _ => (none : Option String)) HB_FILE ∧
    (fun q => if q = HB_FILE then some "2026" else (none : Option String)) HB_FILE ≠
      some "20261012" := by
  refine ⟨Or.inr (Or.inl ⟨"2026".data, by decide, ?_⟩), by decide, by decide⟩
  rfl

/-- C3 (corrected): the state-snapshot write is atomic — save_state
writes a temporary file and renames it over the target, so a crash at
any point leaves the state file with either its old contents or the
complete new contents; the heartbeat marker, however, is written
directly and is not covered by this guarantee. -/
theorem c3_save_state_atomic (content : String) (fs0 fs : FS)
    (h : Reach (save_state_ops content) fs0 fs) :
    fs STATE_PATH = fs0 STATE_PATH ∨ fs STATE_PATH = some content := by
  simp only [save_state_ops, Reach, midOp, applyOp] at h
  have hne : ¬(STATE_PATH = STATE_PATH ++ ".tmp") := by decide
  rcases h with rfl | ⟨pre, hpre, rfl⟩ | rfl | hfalse | rfl
  · exact Or.inl rfl
  · exact Or.inl (by simp [hne])
  · exact Or.inl (by simp [hne])
  · exact hfalse.elim
  · exact Or.inr (by simp [hne])

/-- Witness for C3 at the crash point before any operation. -/
theorem c3_save_state_atomic_witness :
    (fun _ => (none : Option String)) STATE_PATH =
      (fun _ => (none : Option String)) STATE_PATH ∨
    (fun _ => (none : Option String)) STATE_PATH = some "x" :=
  c3_save_state_atomic "x" (fun _ => none) (fun _ => none) (Or.inl rfl)

/-- C4, counterexample: the claim fails as stated.  In a container
text holding both a labeled rent (賃料:98000円) and a bare
currency-suffixed number (50000円) occurring earlier in the text, the
extracted rent is the bare number, because re.search returns the
leftmost match and only prefers the labeled alternative at equal
starting positions. -/
theorem c4_bare_rent_first_cex :
    rentValOf "敷金 50000円 賃料:98000円" = "50000円" ∧
    specLabeledRent "敷金 50000円 賃料:98000円".data = some "98000".data ∧
    ("50000円" : String) ≠ "98000円" := by
  refine ⟨by decide, by decide, by decide⟩

/-- C4 (corrected): the label-adjacent value wins only when no bare
currency match starts earlier: when nothing before the rent label can
start a match (no digit or comma and no 賃 character before it), the
extracted rent is the value adjacent to the label. -/
theorem c4_labeled_rent_amended (A n B : List Char)
    (hA : ∀ c ∈ A, isDigitComma c = false ∧ c ≠ '賃')
    (hn : n ≠ []) (hdc : ∀ c ∈ n, isDigitComma c = true) :
    rentValOf ⟨A ++ '賃' :: '料' :: (n ++ '円' :: B)⟩ = ⟨n ++ ['円']⟩ := by
  have hb1 : rentBranch1 ('賃' :: '料' :: (n ++ '円' :: B)) = some n :=
    rentBranch1_label n B hn hdc
  have hsearch := rentSearch_skip ('賃' :: '料' :: (n ++ '円' :: B)) n
    (fun prev => rentSearch_of_branch1 prev '賃' _ n hb1) A none hA
  unfold rentValOf
  rw [show (⟨A ++ '賃' :: '料' :: (n ++ '円' :: B)⟩ : String).data =
    A ++ '賃' :: '料' :: (n ++ '円' :: B) from rfl]
  rw [hsearch]
  simp [pyOr, hn]

/-- Witness for C4 on a concrete container text. -/
theorem c4_labeled_rent_amended_witness :
    rentValOf ⟨"ここ".data ++ '賃' :: '料' :: ("98000".data ++ '円' :: " 管理".data)⟩ =
      ⟨"98000".data ++ ['円']⟩ :=
  c4_labeled_rent_amended "ここ".data "98000".data " 管理".data
    (by decide) (by decide) (by decide)

/-- C5, counterexample: the claim fails as stated at sub-second
precision: a timestamp in minute 18:59 (18:59:59.500000) lies inside
the claimed inclusive 09:30-18:59 window but in_window rejects it,
because the upper bound is the instant 18:59:59.000000. -/
theorem c5_microsecond_boundary_cex :
    specMinuteWindow ⟨18, 59, 59, 500000⟩ = true ∧
    in_window ⟨18, 59, 59, 500000⟩ = false := by
  constructor <;> decide

/-- C5 (corrected): for timestamps with a whole number of seconds
(microsecond component zero), in_window holds exactly when the
minute of day lies between 09:30 and 18:59 inclusive; one minute
before the window start (09:29) and one minute after the window end
(19:00) are rejected, and the exact boundaries 09:30 and 18:59 are
included. -/
theorem c5_window_amended :
    (∀ t : Time, t.second ≤ 59 → t.micro = 0 →
      (in_window t = true ↔ specMinuteWindow t = true)) ∧
    in_window ⟨9, 29, 0, 0⟩ = false ∧ in_window ⟨19, 0, 0, 0⟩ = false ∧
    in_window ⟨9, 30, 0, 0⟩ = true ∧ in_window ⟨18, 59, 0, 0⟩ = true ∧
    in_window ⟨18, 59, 59, 0⟩ = true := by
  refine ⟨?_, by decide, by decide, by decide, by decide, by decide⟩
  intro t hs hm
  simp only [in_window, timeLE, specMinuteWindow, WINDOW_START, WINDOW_END,
    Bool.and_eq_true, decide_eq_true_eq]
  omega

/-- Witness for C5 at 10:00:00.000000. -/
theorem c5_window_amended_witness :
    in_window ⟨10, 0, 0, 0⟩ = true ↔ specMinuteWindow ⟨10, 0, 0, 0⟩ = true :=
  c5_window_amended.1 ⟨10, 0, 0, 0⟩ (by decide) rfl

/-- C6 (confirmed): with no state file, load_state returns the empty
set and the first-run flag; and for every set of canonical keys
(given by any enumeration S), loading immediately after saving
returns exactly that set with the first-run flag cleared — the
save/load round trip is the identity on key sets. -/
theorem c6_state_roundtrip :
    load_state .missing = (∅, true) ∧
    ∀ S : List Key, load_state (.json (save_state_json S)) = (S.toFinset, false) := by
  refine ⟨rfl, ?_⟩
  intro S
  unfold load_state save_state_json
  simp only [List.lookup, beq_self_eq_true]
  rw [tuplesOf_keys]
  show ((List.insertionSort (fun a b : Key => keyLE a b = true) S).toFinset, false) =
    (S.toFinset, false)
  rw [List.toFinset_eq_of_perm _ _ (List.perm_insertionSort _ _)]

/-- C7 (confirmed): load_state treats the rooms-document shape and
the legacy bare-array shape identically, recovers unreadable or
unparseable content as first-run, and returns the empty set with the
first-run flag for every parsed value that is neither a list nor a
dict whose rooms value is a list. -/
theorem c7_state_compat :
    (∀ xs : List J,
      load_state (.json (J.obj [("rooms", J.arr xs)])) = load_state (.json (J.arr xs))) ∧
    load_state .malformed = (∅, true) ∧
    (∀ j : J, ¬ validShape j → load_state (.json j) = (∅, true)) := by
  refine ⟨fun xs => rfl, rfl, ?_⟩
  intro j hj
  cases j with
  | null => rfl
  | bool b => rfl
  | num nn => rfl
  | str s => rfl
  | arr xs => exact absurd (Or.inl ⟨xs, rfl⟩) hj
  | obj kvs =>
    unfold load_state
    cases hlk : kvs.lookup "rooms" with
    | none => simp [hlk]
    | some v =>
      cases v with
      | arr xs => exact absurd (Or.inr ⟨kvs, xs, rfl, hlk⟩) hj
      | null => simp [hlk]
      | bool b => simp [hlk]
      | num nn => simp [hlk]
      | str s => simp [hlk]
      | obj kvs2 => simp [hlk]

/-- Witness for C7 at a number-valued state file. -/
theorem c7_state_compat_witness :
    load_state (.json (J.num 0)) = (∅, true) :=
  c7_state_compat.2.2 (J.num 0)
    (by rintro (⟨xs, h⟩ | ⟨kvs, xs, h, _⟩) <;> exact J.noConfusion h)

/-- C8, counterexample: canonicalization is not idempotent on all
records.  For a record with field value "&su p2;", the first cleaning
pass removes the space and so splices together the named entity
"&sup2;", which the second pass decodes to "²": re-canonicalizing the
key components yields a different key. -/
theorem c8_idempotence_cex :
    canonicalize [keyRoom ⟨none, some "&su p2;", none, none, none, none, none⟩] ≠
      canonicalize [(⟨none, some "&su p2;", none, none, none, none, none⟩ : Room)] ∧
    clean (some (clean (some "&su p2;"))) ≠ clean (some "&su p2;") := by
  constructor <;> decide

/-- C8 (corrected): canonicalization is idempotent for every record
whose cleaned field values contain no square-meter encoding pattern
(no ㎡ character and no "&sup2;" substring) — equivalently, for
strings whose cleaning does not newly create such a pattern,
clean (clean s) = clean s. -/
theorem c8_idempotence_amended :
    (∀ r : Room, GoodField r.name → GoodField r.type → GoodField r.floorspace →
      GoodField r.floor → GoodField r.rent → GoodField r.commonfee →
      canonicalize [keyRoom r] = canonicalize [r]) ∧
    (∀ s : String, GoodField (some s) →
      clean (some (clean (some s))) = clean (some s)) := by
  constructor
  · intro r h1 h2 h3 h4 h5 h6
    rw [canonicalize_singleton, canonicalize_singleton]
    simp only [keyOf, keyRoom]
    rw [clean_idem _ h1, clean_idem _ h2, clean_idem _ h3, clean_idem _ h4,
      clean_idem _ h5, clean_idem _ h6]
  · intro s h
    exact clean_idem (some s) h

/-- Witness for C8 at the concrete area string 52.3㎡. -/
theorem c8_idempotence_amended_witness :
    clean (some (clean (some "52.3㎡"))) = clean (some "52.3㎡") :=
  c8_idempotence_amended.2 "52.3㎡" ⟨by decide, by decide⟩

/-- C9 (confirmed): the primary structured fetch issues its requests
with consecutive page cursors starting at 1 and a fixed page size of
20 (via make_payload), never issues more than 10 requests, and every
request except possibly the last was preceded by a full page of at
least 20 items — i.e. paging stops as soon as a page yields zero or
fewer than 20 items. -/
theorem c9_paging_bounded (env : FetchEnv) :
    (fetch_api_v2_old env).2 =
      (List.range' 1 (fetch_api_v2_old env).2.length).map make_payload ∧
    (fetch_api_v2_old env).2.length ≤ 10 ∧
    (∀ p, 0 < p → p < (fetch_api_v2_old env).2.length →
      ∃ its, env.post (make_payload p) = some its ∧ 20 ≤ its.length) := by
  obtain ⟨m, hm, heq, hfull⟩ := fetchApiGo_pages env 10 1 [] []
  have h2 : (fetch_api_v2_old env).2 = (List.range' 1 m).map make_payload := by
    show (fetchApiGo env 10 1 [] []).2 = _
    rw [heq]
    rfl
  have hlen : (fetch_api_v2_old env).2.length = m := by
    rw [h2]; simp
  refine ⟨by rw [hlen, h2], by omega, ?_⟩
  intro p hp0 hpl
  rw [hlen] at hpl
  have hh := hfull (p - 1) (by omega)
  have harith : 1 + (p - 1) = p := by omega
  rwa [harith] at hh

/-- Witness for C9 on an environment whose first page is full and
whose second page is empty: the non-final first page carried at least
20 items. -/
theorem c9_paging_bounded_witness :
    ∃ its,
      (⟨fun pl => if pl = make_payload 1 then some (List.replicate 20 emptyRoom)
        else some [], [], []⟩ : FetchEnv).post (make_payload 1) = some its ∧
      20 ≤ its.length :=
  (c9_paging_bounded ⟨fun pl => if pl = make_payload 1 then
      some (List.replicate 20 emptyRoom) else some [], [], []⟩).2.2
    1 (by decide) (by decide)

/-- C10 (confirmed): canonicalize is total on records with optional
fields — a missing or None field is cleaned as the empty string — and
every produced key is the 6-tuple of cleaned fields of some input
record, in the fixed order name, type, floorspace, floor, rent,
commonfee (the order fixed by keyOf). -/
theorem c10_canonicalize_total :
    (∀ (rooms : List Room) (k : Key), k ∈ canonicalize rooms →
      k.length = 6 ∧ ∃ r ∈ rooms, k = keyOf r) ∧ clean none = "" := by
  constructor
  · intro rooms k hk
    unfold canonicalize at hk
    rw [List.mem_insertionSort, List.mem_dedup] at hk
    obtain ⟨r, hr, rfl⟩ := List.mem_map.mp hk
    exact ⟨rfl, r, hr, rfl⟩
  · rfl

/-- Witness for C10 at the all-absent record. -/
theorem c10_canonicalize_total_witness :
    (keyOf emptyRoom).length = 6 ∧ ∃ r ∈ [emptyRoom], keyOf emptyRoom = keyOf r :=
  c10_canonicalize_total.1 [emptyRoom] (keyOf emptyRoom) (by decide)
